import Mathlib

/-!
# Formal model of the deepinv haze operator and MRI acceleration mask generator

Shallow embedding of `src/deepinv/diffops/physics/haze.py` and
`src/deepinv/physics/generator/mri.py`.

A rank-4 torch tensor is modelled as its shape together with a total indexing
function; broadcasting over size-one axes is modelled by the index transformer
`bidx`.  Floating-point arithmetic of the haze operator is idealised as real
arithmetic; the percent computations `int(0.08 * W)` of the mask generator are
idealised as exact rational arithmetic, i.e. natural-number division
`8 * W / 100`.
-/

/-- Broadcast index: a size-one axis is always read at index 0. -/
def bidx (size i : ℕ) : ℕ := if size = 1 then 0 else i

lemma bidx_of_lt {n i : ℕ} (h : i < n) : bidx n i = i := by
  unfold bidx
  split
  · omega
  · rfl

/-- Dense rank-4 real tensor with shape (batch, chan, height, width).
The data function is total; entries outside the shape are irrelevant. -/
structure Tensor4 where
  batch : ℕ
  chan : ℕ
  height : ℕ
  width : ℕ
  data : ℕ → ℕ → ℕ → ℕ → ℝ

/-- Shape of a tensor as a quadruple (B, C, H, W). -/
def Tensor4.shape (x : Tensor4) : ℕ × ℕ × ℕ × ℕ := (x.batch, x.chan, x.height, x.width)

/-- Read an entry with torch broadcasting semantics on size-one axes. -/
def Tensor4.read (x : Tensor4) (b c h w : ℕ) : ℝ :=
  x.data (bidx x.batch b) (bidx x.chan c) (bidx x.height h) (bidx x.width w)

lemma Tensor4.read_eq_data (x : Tensor4) {b c h w : ℕ}
    (hb : b < x.batch) (hc : c < x.chan) (hh : h < x.height) (hw : w < x.width) :
    x.read b c h w = x.data b c h w := by
  unfold Tensor4.read
  rw [bidx_of_lt hb, bidx_of_lt hc, bidx_of_lt hh, bidx_of_lt hw]

/-- The haze operator of `haze.py`; `beta` is the scattering coefficient fixed
at construction (`self.beta`). -/
structure Haze where
  beta : ℝ

/-- `Haze.A(x)`: with `im = x[0]`, `d = x[1]`, `A = x[2]`, computes
`t = exp(-self.beta*d)` and returns `y = t*im + (1-t)*A` elementwise, with
torch broadcasting; the atmospheric light is a scalar (as produced by
`A_adjoint`), so the output shape is the broadcast of the image and depth
shapes. -/
noncomputable def Haze.A (self : Haze) (x : Tensor4 × Tensor4 × ℝ) : Tensor4 :=
  { batch := max x.1.batch x.2.1.batch
    chan := max x.1.chan x.2.1.chan
    height := max x.1.height x.2.1.height
    width := max x.1.width x.2.1.width
    data := fun b c h w =>
      Real.exp (-self.beta * x.2.1.read b c h w) * x.1.read b c h w +
        (1 - Real.exp (-self.beta * x.2.1.read b c h w)) * x.2.2 }

/-- `Haze.A_adjoint(y)`: reads `b, c, h, w` from the observation shape and
returns the triple `(y, torch.ones((b, 1, h, w)), 1.)`. -/
def Haze.A_adjoint (_self : Haze) (y : Tensor4) : Tensor4 × Tensor4 × ℝ :=
  (y,
   { batch := y.batch, chan := 1, height := y.height, width := y.width,
     data := fun _ _ _ _ => 1 },
   1)

/-- Latent states as described by the spec data model: the depth tensor has
shape (B, 1, H, W) matching the image, and the image has at least one
channel. -/
def ValidHazeState (im d : Tensor4) : Prop :=
  d.batch = im.batch ∧ d.chan = 1 ∧ d.height = im.height ∧ d.width = im.width ∧
    1 ≤ im.chan

instance (im d : Tensor4) : Decidable (ValidHazeState im d) := by
  unfold ValidHazeState
  infer_instance

lemma haze_A_shape (op : Haze) (im d : Tensor4) (A : ℝ)
    (hv : ValidHazeState im d) : (op.A (im, d, A)).shape = im.shape := by
  obtain ⟨hb, hc, hh, hw, hch⟩ := hv
  simp [Haze.A, Tensor4.shape, hb, hc, hh, hw, Nat.max_eq_left hch]

lemma haze_A_data (op : Haze) (im d : Tensor4) (A : ℝ)
    (hv : ValidHazeState im d) {b c h w : ℕ}
    (hb : b < im.batch) (hc : c < im.chan) (hh : h < im.height) (hw : w < im.width) :
    (op.A (im, d, A)).data b c h w =
      Real.exp (-op.beta * d.data b 0 h w) * im.data b c h w +
        (1 - Real.exp (-op.beta * d.data b 0 h w)) * A := by
  obtain ⟨hb', hc', hh', hw', hch⟩ := hv
  have hdr : d.read b c h w = d.data b 0 h w := by
    unfold Tensor4.read
    rw [bidx_of_lt (show b < d.batch by omega), hc']
    rw [bidx_of_lt (show h < d.height by omega), bidx_of_lt (show w < d.width by omega)]
    rfl
  have hir : im.read b c h w = im.data b c h w := im.read_eq_data hb hc hh hw
  simp only [Haze.A]
  rw [hdr, hir]

/-!
## MRI acceleration mask generator (`mri.py`)

`np.random.choice` draws are modelled by an external function `rand` giving,
per batch element, the drawn row indices; `step` is deterministic given it.
Python runtime failures are modelled by `PyError`: the `ValueError` the code
raises for a bad `img_size`, and the `NameError` the interpreter raises when
`acceleration` is neither 4 nor 8 and `num_lines_center` is read while still
unassigned.
-/

/-- A Python exception escaping `step`. -/
inductive PyError where
  | valueError : String → PyError
  | nameError : String → PyError
deriving DecidableEq

/-- The generated mask: a float tensor of shape (batch, C, H, W) whose
entries are 0 or 1 (modelled as rationals). -/
structure Mask where
  batch : ℕ
  chan : ℕ
  height : ℕ
  width : ℕ
  data : ℕ → ℕ → ℕ → ℕ → ℚ

/-- Cast-to-long of a rational: truncation toward zero, as torch casts the
float values of `linspace` to `dtype=torch.long`. -/
def ratTrunc (q : ℚ) : ℤ := if 0 ≤ q then Int.floor q else Int.ceil q

/-- The `i`-th evenly spaced value of `torch.linspace(s, e, steps)`, computed
as a rational: `s + i * (e - s) / (steps - 1)`. -/
def linspaceFun (s e : ℤ) (steps i : ℕ) : ℚ :=
  (s : ℚ) + (i : ℚ) * ((e : ℚ) - (s : ℚ)) / ((steps : ℚ) - 1)

/-- `torch.linspace(s, e, steps, dtype=torch.long)`: `steps` evenly spaced
values from `s` to `e`, each truncated to an integer. -/
def linspaceLong (s e : ℤ) (steps : ℕ) : List ℤ :=
  (List.range steps).map (fun i => ratTrunc (linspaceFun s e steps i))

/-- First endpoint of the deterministic center band, `H // 2 - num_lines_center // 2`
(Python integer arithmetic, so the subtraction lives in ℤ). -/
def centerStart (H nlc : ℕ) : ℤ := ((H / 2 : ℕ) : ℤ) - ((nlc / 2 : ℕ) : ℤ)

/-- Second endpoint of the deterministic center band,
`H // 2 + num_lines_center // 2 + 1`. -/
def centerEnd (H nlc : ℕ) : ℤ := ((H / 2 : ℕ) : ℤ) + ((nlc / 2 : ℕ) : ℤ) + 1

/-- `center_line_indices = torch.linspace(H//2 - nlc//2, H//2 + nlc//2 + 1,
steps=50, dtype=torch.long)`. -/
def centerLineIndices (H nlc : ℕ) : List ℤ :=
  linspaceLong (centerStart H nlc) (centerEnd H nlc) 50

/-- The mask built by `step` after the density parameters are known:
`mask = zeros(batch, H, W)`; `mask[:, :, center_line_indices] = 1`;
`mask[i, :, random_line_indices] = 1` for each batch index `i` (the random
draw has `num_lines_side // 2` entries); finally the (batch, H, W) pattern is
replicated across a new channel axis `C` times by
`torch.cat([mask.float().unsqueeze(1)] * C, dim=1)`.  Both index assignments
hit the last axis, so an entry is 1 exactly when its `w` coordinate is a
center line or one of that batch element's random lines. -/
def theMask (rand : ℕ → List ℕ) (batch_size C H W nlc nls : ℕ) : Mask :=
  { batch := batch_size
    chan := C
    height := H
    width := W
    data := fun b c _h w =>
      if c < C then
        if (w : ℤ) ∈ centerLineIndices H nlc ∨ w ∈ (rand b).take (nls / 2) then 1 else 0
      else 0 }

/-- The body of `step` from the density-parameter selection on: the two `if`
branches of the source assign the parameters for acceleration 4 and 8; for any
other factor `num_lines_center` is never assigned and its first read raises
`NameError`. -/
def maskFor (acceleration : ℕ) (rand : ℕ → List ℕ) (batch_size C H W : ℕ) :
    Except PyError (List (String × Mask)) :=
  if acceleration = 4 then
    Except.ok [("mask", theMask rand batch_size C H W (8 * W / 100) (17 * W / 100))]
  else if acceleration = 8 then
    Except.ok [("mask", theMask rand batch_size C H W (4 * W / 100) (85 * W / 1000))]
  else
    Except.error (PyError.nameError "num_lines_center")

/-- Configuration of `AccelerationMaskGenerator.__init__`: `img_size` is a
tuple of naturals, `acceleration` an integer factor (the device is irrelevant
to the semantics). -/
structure AccelerationMaskGenerator where
  img_size : List ℕ
  acceleration : ℕ

/-- `AccelerationMaskGenerator.step(batch_size)`: derives `(C, H, W)` from
`img_size` (a 2-tuple means `C = 2`), raising
`ValueError("img_size must be (C, H, W) or (H, W)")` for any other rank, then
builds the mask dictionary `{"mask": tensor}`. -/
def AccelerationMaskGenerator.step (self : AccelerationMaskGenerator)
    (rand : ℕ → List ℕ) (batch_size : ℕ) : Except PyError (List (String × Mask)) :=
  match self.img_size with
  | [H, W] => maskFor self.acceleration rand batch_size 2 H W
  | [C, H, W] => maskFor self.acceleration rand batch_size C H W
  | _ => Except.error (PyError.valueError "img_size must be (C, H, W) or (H, W)")

lemma theMask_data01 (rand : ℕ → List ℕ) (bs C H W nlc nls : ℕ) (b c h w : ℕ) :
    (theMask rand bs C H W nlc nls).data b c h w = 0 ∨
      (theMask rand bs C H W nlc nls).data b c h w = 1 := by
  simp only [theMask]
  split
  · split
    · right; rfl
    · left; rfl
  · left; rfl

lemma theMask_chan_indep (rand : ℕ → List ℕ) (bs C H W nlc nls : ℕ)
    {b c c' h w : ℕ} (hc : c < C) (hc' : c' < C) :
    (theMask rand bs C H W nlc nls).data b c h w =
      (theMask rand bs C H W nlc nls).data b c' h w := by
  simp only [theMask, if_pos hc, if_pos hc']

lemma theMask_height_indep (rand : ℕ → List ℕ) (bs C H W nlc nls : ℕ)
    (b c h h' w : ℕ) :
    (theMask rand bs C H W nlc nls).data b c h w =
      (theMask rand bs C H W nlc nls).data b c h' w := rfl

lemma theMask_center_one (rand : ℕ → List ℕ) (bs C H W nlc nls : ℕ)
    {b c h w : ℕ} (hc : c < C) (hmem : (w : ℤ) ∈ centerLineIndices H nlc) :
    (theMask rand bs C H W nlc nls).data b c h w = 1 := by
  simp only [theMask, if_pos hc, if_pos (Or.inl hmem)]

/-- Case analysis of a successful `step` call: the image size parsed to
`(C, H, W)`, the acceleration was 4 or 8 with the matching density
parameters, and the result is the single-entry mask dictionary. -/
lemma step_ok_cases (g : AccelerationMaskGenerator) (rand : ℕ → List ℕ)
    (bs : ℕ) (res : List (String × Mask))
    (hok : g.step rand bs = Except.ok res) :
    ∃ C H W nlc nls,
      ((g.img_size = [H, W] ∧ C = 2) ∨ g.img_size = [C, H, W]) ∧
      ((g.acceleration = 4 ∧ nlc = 8 * W / 100 ∧ nls = 17 * W / 100) ∨
        (g.acceleration = 8 ∧ nlc = 4 * W / 100 ∧ nls = 85 * W / 1000)) ∧
      res = [("mask", theMask rand bs C H W nlc nls)] := by
  rcases g with ⟨sz, acc⟩
  have hmf : ∀ C H W, maskFor acc rand bs C H W = Except.ok res →
      ∃ nlc nls,
        ((acc = 4 ∧ nlc = 8 * W / 100 ∧ nls = 17 * W / 100) ∨
          (acc = 8 ∧ nlc = 4 * W / 100 ∧ nls = 85 * W / 1000)) ∧
        res = [("mask", theMask rand bs C H W nlc nls)] := by
    intro C H W h
    unfold maskFor at h
    by_cases h4 : acc = 4
    · rw [if_pos h4] at h
      simp only [Except.ok.injEq] at h
      exact ⟨8 * W / 100, 17 * W / 100, Or.inl ⟨h4, rfl, rfl⟩, h.symm⟩
    · rw [if_neg h4] at h
      by_cases h8 : acc = 8
      · rw [if_pos h8] at h
        simp only [Except.ok.injEq] at h
        exact ⟨4 * W / 100, 85 * W / 1000, Or.inr ⟨h8, rfl, rfl⟩, h.symm⟩
      · rw [if_neg h8] at h
        exact absurd h (by simp)
  rcases sz with _ | ⟨a, _ | ⟨b, _ | ⟨c, _ | ⟨d, rest⟩⟩⟩⟩
  · exact absurd hok (by simp [AccelerationMaskGenerator.step])
  · exact absurd hok (by simp [AccelerationMaskGenerator.step])
  · obtain ⟨nlc, nls, hacc, hres⟩ := hmf 2 a b hok
    exact ⟨2, a, b, nlc, nls, Or.inl ⟨rfl, rfl⟩, hacc, hres⟩
  · obtain ⟨nlc, nls, hacc, hres⟩ := hmf a b c hok
    exact ⟨a, b, c, nlc, nls, Or.inr rfl, hacc, hres⟩
  · exact absurd hok (by simp [AccelerationMaskGenerator.step])

lemma ratTrunc_intCast (n : ℤ) : ratTrunc (n : ℚ) = n := by
  unfold ratTrunc
  split
  · exact Int.floor_intCast n
  · exact Int.ceil_intCast n

lemma floor_le_ratTrunc (q : ℚ) : Int.floor q ≤ ratTrunc q := by
  unfold ratTrunc
  split
  · exact le_refl _
  · exact Int.floor_le_ceil q

lemma ratTrunc_le_ceil (q : ℚ) : ratTrunc q ≤ Int.ceil q := by
  unfold ratTrunc
  split
  · exact Int.floor_le_ceil q
  · exact le_refl _

lemma ratTrunc_mono {x y : ℚ} (h : x ≤ y) : ratTrunc x ≤ ratTrunc y := by
  unfold ratTrunc
  by_cases hx : 0 ≤ x
  · rw [if_pos hx, if_pos (le_trans hx h)]
    exact Int.floor_le_floor h
  · rw [if_neg hx]
    by_cases hy : 0 ≤ y
    · rw [if_pos hy]
      have h1 : Int.ceil x ≤ 0 := Int.ceil_le.mpr (by exact_mod_cast le_of_not_le hx)
      have h2 : (0 : ℤ) ≤ Int.floor y := Int.le_floor.mpr (by exact_mod_cast hy)
      omega
    · rw [if_neg hy]
      exact Int.ceil_le_ceil h

lemma ratTrunc_le_add_one {x y : ℚ} (h : y ≤ x + 1) : ratTrunc y ≤ ratTrunc x + 1 := by
  by_cases hx : 0 ≤ x
  · have hxt : ratTrunc x = Int.floor x := if_pos hx
    by_cases hy : 0 ≤ y
    · have hyt : ratTrunc y = Int.floor y := if_pos hy
      rw [hxt, hyt]
      calc Int.floor y ≤ Int.floor (x + 1) := Int.floor_le_floor h
        _ = Int.floor x + 1 := by
            rw [show x + 1 = x + (1 : ℤ) by norm_num, Int.floor_add_int]
    · have hyt : ratTrunc y = Int.ceil y := if_neg hy
      have h1 : Int.ceil y ≤ 0 := Int.ceil_le.mpr (by exact_mod_cast le_of_not_le hy)
      have h2 : (0 : ℤ) ≤ Int.floor x := Int.le_floor.mpr (by exact_mod_cast hx)
      rw [hxt, hyt]
      omega
  · have hxt : ratTrunc x = Int.ceil x := if_neg hx
    rw [hxt]
    calc ratTrunc y ≤ Int.ceil y := ratTrunc_le_ceil y
      _ ≤ Int.ceil (x + 1) := Int.ceil_le_ceil h
      _ = Int.ceil x + 1 := by
          rw [show x + 1 = x + (1 : ℤ) by norm_num, Int.ceil_add_int]

/-- An integer sequence that climbs by at most one per step attains every
value between its endpoints. -/
lemma int_seq_hits (t : ℕ → ℤ) :
    ∀ n : ℕ, (∀ i, i < n → t i ≤ t (i + 1)) → (∀ i, i < n → t (i + 1) ≤ t i + 1) →
      ∀ k : ℤ, t 0 ≤ k → k ≤ t n → ∃ i, i ≤ n ∧ t i = k := by
  intro n
  induction n with
  | zero =>
    intro _ _ k h0 h1
    exact ⟨0, le_refl 0, le_antisymm h0 h1⟩
  | succ n ih =>
    intro hm hs k h0 h1
    by_cases hk : k ≤ t n
    · obtain ⟨i, hi, he⟩ :=
        ih (fun i h => hm i (Nat.lt_succ_of_lt h)) (fun i h => hs i (Nat.lt_succ_of_lt h))
          k h0 hk
      exact ⟨i, Nat.le_succ_of_le hi, he⟩
    · push_neg at hk
      have h2 : t (n + 1) ≤ t n + 1 := hs n (Nat.lt_succ_self n)
      exact ⟨n + 1, le_refl _, by omega⟩

lemma linspaceLong_length (s e : ℤ) (steps : ℕ) :
    (linspaceLong s e steps).length = steps := by
  simp [linspaceLong]

lemma linspaceLong_getD (s e : ℤ) {steps i : ℕ} (h : i < steps) :
    (linspaceLong s e steps).getD i 0 = ratTrunc (linspaceFun s e steps i) := by
  have hl : i < (linspaceLong s e steps).length := by
    rw [linspaceLong_length]; exact h
  rw [List.getD_eq_getElem _ _ hl]
  simp [linspaceLong]

lemma mem_linspaceLong (s e : ℤ) (steps : ℕ) (k : ℤ) :
    k ∈ linspaceLong s e steps ↔
      ∃ i, i < steps ∧ ratTrunc (linspaceFun s e steps i) = k := by
  simp [linspaceLong, List.mem_map, List.mem_range]

lemma linspaceFun50 (s e : ℤ) (i : ℕ) :
    linspaceFun s e 50 i = (s : ℚ) + (i : ℚ) * ((e : ℚ) - (s : ℚ)) / 49 := by
  unfold linspaceFun
  norm_num

/-- A 50-point truncated linspace whose span is at most 49 hits exactly every
integer between its endpoints. -/
lemma linspace50_covers (s e : ℤ) (hpos : 0 < e - s) (hspan : e - s ≤ 49) :
    ∀ k : ℤ, k ∈ linspaceLong s e 50 ↔ (s ≤ k ∧ k ≤ e) := by
  intro k
  have hD0 : (0 : ℚ) ≤ (e : ℚ) - (s : ℚ) := by
    have : ((0 : ℤ) : ℚ) ≤ ((e - s : ℤ) : ℚ) := by exact_mod_cast le_of_lt hpos
    push_cast at this
    linarith
  have hD49 : (e : ℚ) - (s : ℚ) ≤ 49 := by
    have : ((e - s : ℤ) : ℚ) ≤ ((49 : ℤ) : ℚ) := by exact_mod_cast hspan
    push_cast at this
    linarith
  have hstep : ∀ i : ℕ,
      linspaceFun s e 50 (i + 1) - linspaceFun s e 50 i = ((e : ℚ) - (s : ℚ)) / 49 := by
    intro i
    rw [linspaceFun50, linspaceFun50]
    push_cast
    ring
  have hlow : ∀ i : ℕ, (s : ℚ) ≤ linspaceFun s e 50 i := by
    intro i
    rw [linspaceFun50]
    have : (0 : ℚ) ≤ (i : ℚ) * ((e : ℚ) - (s : ℚ)) / 49 :=
      div_nonneg (mul_nonneg (Nat.cast_nonneg i) hD0) (by norm_num)
    linarith
  have hhigh : ∀ i : ℕ, i < 50 → linspaceFun s e 50 i ≤ (e : ℚ) := by
    intro i hi
    rw [linspaceFun50]
    have hi49 : (i : ℚ) ≤ 49 := by exact_mod_cast (by omega : i ≤ 49)
    have h1 : (i : ℚ) * ((e : ℚ) - (s : ℚ)) ≤ 49 * ((e : ℚ) - (s : ℚ)) :=
      mul_le_mul_of_nonneg_right hi49 hD0
    have h2 : (i : ℚ) * ((e : ℚ) - (s : ℚ)) / 49 ≤ (e : ℚ) - (s : ℚ) := by
      rw [div_le_iff₀ (show (0 : ℚ) < 49 by norm_num)]
      linarith
    linarith
  have hzero : ratTrunc (linspaceFun s e 50 0) = s := by
    have h0 : linspaceFun s e 50 0 = ((s : ℤ) : ℚ) := by
      rw [linspaceFun50]
      push_cast
      ring
    rw [h0, ratTrunc_intCast]
  have hlast : ratTrunc (linspaceFun s e 50 49) = e := by
    have h49 : linspaceFun s e 50 49 = ((e : ℤ) : ℚ) := by
      rw [linspaceFun50]
      push_cast
      field_simp
    rw [h49, ratTrunc_intCast]
  rw [mem_linspaceLong]
  constructor
  · rintro ⟨i, hi, he⟩
    constructor
    · calc s = ratTrunc ((s : ℚ)) := (ratTrunc_intCast s).symm
        _ ≤ ratTrunc (linspaceFun s e 50 i) := ratTrunc_mono (hlow i)
        _ = k := he
    · calc k = ratTrunc (linspaceFun s e 50 i) := he.symm
        _ ≤ ratTrunc ((e : ℚ)) := ratTrunc_mono (hhigh i hi)
        _ = e := ratTrunc_intCast e
  · rintro ⟨hks, hke⟩
    have hmono : ∀ i, i < 49 →
        ratTrunc (linspaceFun s e 50 i) ≤ ratTrunc (linspaceFun s e 50 (i + 1)) := by
      intro i _
      apply ratTrunc_mono
      have := hstep i
      have h3 : (0 : ℚ) ≤ ((e : ℚ) - (s : ℚ)) / 49 := div_nonneg hD0 (by norm_num)
      linarith
    have hone : ∀ i, i < 49 →
        ratTrunc (linspaceFun s e 50 (i + 1)) ≤ ratTrunc (linspaceFun s e 50 i) + 1 := by
      intro i _
      apply ratTrunc_le_add_one
      have := hstep i
      have h4 : ((e : ℚ) - (s : ℚ)) / 49 ≤ 1 :=
        (div_le_one (show (0 : ℚ) < 49 by norm_num)).mpr hD49
      linarith
    obtain ⟨i, hi, he⟩ :=
      int_seq_hits (fun i => ratTrunc (linspaceFun s e 50 i)) 49 hmono hone k
        (by show ratTrunc (linspaceFun s e 50 0) ≤ k
            rw [hzero]; exact hks)
        (by show k ≤ ratTrunc (linspaceFun s e 50 49)
            rw [hlast]; exact hke)
    exact ⟨i, by omega, he⟩

lemma centerSpan (H nlc : ℕ) :
    centerEnd H nlc - centerStart H nlc = 2 * ((nlc / 2 : ℕ) : ℤ) + 1 := by
  unfold centerStart centerEnd
  ring

/-!
## Concrete inputs used by the witnesses
-/

/-- A 1×1×1×1 image tensor with constant value 2. -/
def demoIm : Tensor4 := ⟨1, 1, 1, 1, fun _ _ _ _ => 2⟩

/-- A 1×1×1×1 depth tensor with constant value 0. -/
def demoDepth : Tensor4 := ⟨1, 1, 1, 1, fun _ _ _ _ => 0⟩

/-- A 1×2×3×4 observation tensor with constant value 5. -/
def demoObs : Tensor4 := ⟨1, 2, 3, 4, fun _ _ _ _ => 5⟩

/-!
## Claims about the haze operator
-/

/-- Claim C1: for every latent-state triple (image, depth, atmospheric light),
`Haze.A` returns `t * image + (1 - t) * atmospheric_light` pointwise, where
`t = exp(-beta * depth)` and `beta` is the construction-time coefficient, and
the output tensor has the same shape as the image. -/
theorem haze_A_formula (op : Haze) (im d : Tensor4) (A : ℝ)
    (hv : ValidHazeState im d) :
    (op.A (im, d, A)).shape = im.shape ∧
      ∀ b c h w, b < im.batch → c < im.chan → h < im.height → w < im.width →
        (op.A (im, d, A)).data b c h w =
          Real.exp (-op.beta * d.data b 0 h w) * im.data b c h w +
            (1 - Real.exp (-op.beta * d.data b 0 h w)) * A := by
  refine ⟨haze_A_shape op im d A hv, ?_⟩
  intro b c h w hb hc hh hw
  exact haze_A_data op im d A hv hb hc hh hw

theorem haze_A_formula_witness :
    (Haze.A ⟨1⟩ (demoIm, demoDepth, 3)).shape = demoIm.shape ∧
      (Haze.A ⟨1⟩ (demoIm, demoDepth, 3)).data 0 0 0 0 =
        Real.exp (-(1 : ℝ) * demoDepth.data 0 0 0 0) * demoIm.data 0 0 0 0 +
          (1 - Real.exp (-(1 : ℝ) * demoDepth.data 0 0 0 0)) * 3 := by
  obtain ⟨h1, h2⟩ := haze_A_formula ⟨1⟩ demoIm demoDepth 3 (by decide)
  exact ⟨h1, h2 0 0 0 0 (by decide) (by decide) (by decide) (by decide)⟩

/-- Claim C2: `Haze.A_adjoint` returns the triple
(image seed, depth seed, atmospheric light seed) in that positional order: the
image seed is the observation itself, the depth seed is an all-ones tensor of
shape (B, 1, H, W), the atmospheric light seed is the constant 1; the depth
and light seeds depend only on the observation's shape, never on its
content. -/
theorem haze_A_adjoint_seed (op : Haze) (y y' : Tensor4)
    (hsh : y'.shape = y.shape) :
    (op.A_adjoint y).1 = y ∧
      (op.A_adjoint y).2.1.shape = (y.batch, 1, y.height, y.width) ∧
      (∀ b c h w, (op.A_adjoint y).2.1.data b c h w = 1) ∧
      (op.A_adjoint y).2.2 = 1 ∧
      (op.A_adjoint y').2.1 = (op.A_adjoint y).2.1 ∧
      (op.A_adjoint y').2.2 = (op.A_adjoint y).2.2 := by
  have hb : y'.batch = y.batch := congrArg (fun p => p.1) hsh
  have hh : y'.height = y.height := congrArg (fun p => p.2.2.1) hsh
  have hw : y'.width = y.width := congrArg (fun p => p.2.2.2) hsh
  refine ⟨rfl, rfl, fun _ _ _ _ => rfl, rfl, ?_, rfl⟩
  show Tensor4.mk y'.batch 1 y'.height y'.width (fun _ _ _ _ => 1) =
    Tensor4.mk y.batch 1 y.height y.width (fun _ _ _ _ => 1)
  rw [hb, hh, hw]

theorem haze_A_adjoint_seed_witness :
    (Haze.A_adjoint ⟨1⟩ demoObs).1 = demoObs ∧
      (Haze.A_adjoint ⟨1⟩ demoObs).2.1.shape = (1, 1, 3, 4) ∧
      (Haze.A_adjoint ⟨1⟩ demoObs).2.1.data 0 0 0 0 = 1 ∧
      (Haze.A_adjoint ⟨1⟩ demoObs).2.2 = 1 := by
  obtain ⟨h1, h2, h3, h4, _, _⟩ := haze_A_adjoint_seed ⟨1⟩ demoObs demoObs rfl
  exact ⟨h1, h2, h3 0 0 0 0, h4⟩

lemma convex_comb_between (t p q : ℝ) (h0 : 0 ≤ t) (h1 : t ≤ 1) :
    min p q ≤ t * p + (1 - t) * q ∧ t * p + (1 - t) * q ≤ max p q := by
  rcases le_total p q with hpq | hpq
  · rw [min_eq_left hpq, max_eq_right hpq]
    constructor
    · nlinarith [mul_nonneg (sub_nonneg.mpr h1) (sub_nonneg.mpr hpq)]
    · nlinarith [mul_nonneg h0 (sub_nonneg.mpr hpq)]
  · rw [min_eq_right hpq, max_eq_left hpq]
    constructor
    · nlinarith [mul_nonneg h0 (sub_nonneg.mpr hpq)]
    · nlinarith [mul_nonneg (sub_nonneg.mpr h1) (sub_nonneg.mpr hpq)]

/-- Claim C3: when every depth entry is nonnegative and `beta` is
nonnegative, each in-range pixel of the output of `Haze.A` lies between the
corresponding image pixel and the atmospheric light, inclusive: the output is
a pointwise convex combination of the two. -/
theorem haze_A_convex (op : Haze) (im d : Tensor4) (A : ℝ)
    (hv : ValidHazeState im d) (hbeta : 0 ≤ op.beta)
    (hdep : ∀ b c h w, b < d.batch → c < d.chan → h < d.height → w < d.width →
      0 ≤ d.data b c h w) :
    ∀ b c h w, b < im.batch → c < im.chan → h < im.height → w < im.width →
      min (im.data b c h w) A ≤ (op.A (im, d, A)).data b c h w ∧
        (op.A (im, d, A)).data b c h w ≤ max (im.data b c h w) A := by
  intro b c h w hb hc hh hw
  obtain ⟨hb', hc', hh', hw', hch⟩ := hv
  have hd0 : 0 ≤ d.data b 0 h w :=
    hdep b 0 h w (by omega) (by omega) (by omega) (by omega)
  have hexp0 : 0 ≤ Real.exp (-op.beta * d.data b 0 h w) :=
    (Real.exp_pos _).le
  have hexp1 : Real.exp (-op.beta * d.data b 0 h w) ≤ 1 := by
    rw [show (1 : ℝ) = Real.exp 0 from Real.exp_zero.symm]
    apply Real.exp_le_exp.mpr
    nlinarith [mul_nonneg hbeta hd0]
  rw [haze_A_data op im d A ⟨hb', hc', hh', hw', hch⟩ hb hc hh hw]
  exact convex_comb_between _ (im.data b c h w) A hexp0 hexp1

theorem haze_A_convex_witness :
    min (demoIm.data 0 0 0 0) 5 ≤ (Haze.A ⟨1⟩ (demoIm, demoDepth, 5)).data 0 0 0 0 ∧
      (Haze.A ⟨1⟩ (demoIm, demoDepth, 5)).data 0 0 0 0 ≤ max (demoIm.data 0 0 0 0) 5 :=
  haze_A_convex ⟨1⟩ demoIm demoDepth 5 (by decide)
    (by show (0 : ℝ) ≤ 1; norm_num)
    (fun _ _ _ _ _ _ _ _ => le_refl 0)
    0 0 0 0 (by decide) (by decide) (by decide) (by decide)

/-- Claim C8: when the construction parameter `beta` is 0, `Haze.A` returns
exactly the image component of the latent state: same shape and identical
in-range entries. -/
theorem haze_A_beta_zero (op : Haze) (im d : Tensor4) (A : ℝ)
    (hv : ValidHazeState im d) (hbeta : op.beta = 0) :
    (op.A (im, d, A)).shape = im.shape ∧
      ∀ b c h w, b < im.batch → c < im.chan → h < im.height → w < im.width →
        (op.A (im, d, A)).data b c h w = im.data b c h w := by
  refine ⟨haze_A_shape op im d A hv, ?_⟩
  intro b c h w hb hc hh hw
  rw [haze_A_data op im d A hv hb hc hh hw, hbeta]
  simp

theorem haze_A_beta_zero_witness :
    (Haze.A ⟨0⟩ (demoIm, demoDepth, 7)).shape = demoIm.shape ∧
      (Haze.A ⟨0⟩ (demoIm, demoDepth, 7)).data 0 0 0 0 = demoIm.data 0 0 0 0 := by
  obtain ⟨h1, h2⟩ := haze_A_beta_zero ⟨0⟩ demoIm demoDepth 7 (by decide) rfl
  exact ⟨h1, h2 0 0 0 0 (by decide) (by decide) (by decide) (by decide)⟩

/-- The generator of the spec's concrete example: `img_size=(16,16)`,
`acceleration=4`. -/
def demoGen : AccelerationMaskGenerator := ⟨[16, 16], 4⟩

/-- A concrete random draw: every batch element gets row index 3. -/
def demoRand : ℕ → List ℕ := fun _ => [3]

/-- The mask `demoGen.step demoRand 1` produces (`num_lines_center = 1`,
`num_lines_side = 2`). -/
def demoMask : Mask := theMask demoRand 1 2 16 16 1 2

/-!
## Claims about the mask generator
-/

/-- Claim C4: a successful `step(batch_size)` call returns a mapping whose
single key is `"mask"`, holding a tensor of shape (batch_size, C, H, W) with
every entry 0 or 1 and all in-range channel slices identical; a 2-element
`img_size = (H, W)` yields `C = 2` (so `img_size=(16,16)`, `acceleration=4`,
`batch_size=1` yields shape (1, 2, 16, 16), as the witness instantiates). -/
theorem mask_step_shape_values (g : AccelerationMaskGenerator)
    (rand : ℕ → List ℕ) (bs : ℕ) (res : List (String × Mask))
    (hok : g.step rand bs = Except.ok res) :
    ∃ m, res = [("mask", m)] ∧ m.batch = bs ∧
      (∀ b c h w, m.data b c h w = 0 ∨ m.data b c h w = 1) ∧
      (∀ b c c' h w, c < m.chan → c' < m.chan → m.data b c h w = m.data b c' h w) ∧
      (∀ H W, g.img_size = [H, W] → m.chan = 2 ∧ m.height = H ∧ m.width = W) ∧
      (∀ C H W, g.img_size = [C, H, W] → m.chan = C ∧ m.height = H ∧ m.width = W) := by
  obtain ⟨C, H, W, nlc, nls, hsize, _, hres⟩ := step_ok_cases g rand bs res hok
  refine ⟨theMask rand bs C H W nlc nls, hres, rfl,
    theMask_data01 rand bs C H W nlc nls,
    fun b c c' h w hc hc' => theMask_chan_indep rand bs C H W nlc nls hc hc',
    ?_, ?_⟩
  · intro H' W' hsz
    rcases hsize with ⟨h2, hC⟩ | h3
    · rw [h2] at hsz
      simp only [List.cons.injEq, and_true] at hsz
      obtain ⟨hH, hW⟩ := hsz
      subst hH; subst hW
      exact ⟨hC, rfl, rfl⟩
    · rw [h3] at hsz
      simp at hsz
  · intro C' H' W' hsz
    rcases hsize with ⟨h2, _⟩ | h3
    · rw [h2] at hsz
      simp at hsz
    · rw [h3] at hsz
      simp only [List.cons.injEq, and_true] at hsz
      obtain ⟨hC, hH, hW⟩ := hsz
      subst hC; subst hH; subst hW
      exact ⟨rfl, rfl, rfl⟩

theorem mask_step_shape_values_witness :
    ∃ m, [("mask", demoMask)] = [("mask", m)] ∧ m.batch = 1 ∧
      (∀ b c h w, m.data b c h w = 0 ∨ m.data b c h w = 1) ∧
      (∀ b c c' h w, c < m.chan → c' < m.chan → m.data b c h w = m.data b c' h w) ∧
      (∀ H W, demoGen.img_size = [H, W] → m.chan = 2 ∧ m.height = H ∧ m.width = W) ∧
      (∀ C H W, demoGen.img_size = [C, H, W] → m.chan = C ∧ m.height = H ∧ m.width = W) :=
  mask_step_shape_values demoGen demoRand 1 [("mask", demoMask)] rfl

/-- Claim C5, behaviour of the code at the failing input: with
`acceleration = 5` the first `step` call does not raise a configuration
error; it crashes reading the never-assigned variable `num_lines_center`
(a `NameError`), the deferred undefined-value failure the claim rules out. -/
theorem mask_step_acceleration_undefined :
    AccelerationMaskGenerator.step ⟨[16, 16], 5⟩ (fun _ => []) 1 =
      Except.error (PyError.nameError "num_lines_center") := rfl

/-- Claim C9: an `img_size` whose length is neither 2 nor 3 makes the first
`step` call raise the configuration error
`ValueError("img_size must be (C, H, W) or (H, W)")`, and nothing else. -/
theorem mask_step_bad_img_size (g : AccelerationMaskGenerator)
    (rand : ℕ → List ℕ) (bs : ℕ)
    (h2 : g.img_size.length ≠ 2) (h3 : g.img_size.length ≠ 3) :
    g.step rand bs =
      Except.error (PyError.valueError "img_size must be (C, H, W) or (H, W)") := by
  rcases g with ⟨sz, acc⟩
  rcases sz with _ | ⟨a, _ | ⟨b, _ | ⟨c, _ | ⟨d, rest⟩⟩⟩⟩
  · rfl
  · rfl
  · simp at h2
  · simp at h3
  · rfl

theorem mask_step_bad_img_size_witness :
    AccelerationMaskGenerator.step ⟨[1, 2, 3, 4], 4⟩ (fun _ => []) 1 =
      Except.error (PyError.valueError "img_size must be (C, H, W) or (H, W)") :=
  mask_step_bad_img_size ⟨[1, 2, 3, 4], 4⟩ (fun _ => []) 1 (by decide) (by decide)

/-- The property claimed of every generated mask: each row of the (H, W)
frequency grid — fixed height index `h`, all width indices `w` — is fully
retained (all 1) or fully zeroed (all 0). -/
def RowsUniform (m : Mask) : Prop :=
  ∀ b, b < m.batch → ∀ c, c < m.chan → ∀ h, h < m.height →
    ((∀ w, w < m.width → m.data b c h w = 1) ∨
      (∀ w, w < m.width → m.data b c h w = 0))

instance (m : Mask) : Decidable (RowsUniform m) := by
  unfold RowsUniform
  infer_instance

lemma centerLineIndices_16_1_mem (k : ℤ) :
    k ∈ centerLineIndices 16 1 ↔ (8 ≤ k ∧ k ≤ 9) := by
  have hcov := linspace50_covers (centerStart 16 1) (centerEnd 16 1)
    (by decide) (by decide) k
  have hs : centerStart 16 1 = 8 := by decide
  have he : centerEnd 16 1 = 9 := by decide
  rw [hs, he] at hcov
  exact hcov

lemma demoMask_data_zero : demoMask.data 0 0 0 0 = 0 := by
  simp only [demoMask, theMask, demoRand]
  rw [if_pos (by norm_num : (0 : ℕ) < 2), if_neg]
  intro h
  rcases h with h | h
  · have h2 := (centerLineIndices_16_1_mem _).mp h
    norm_num at h2
  · exact absurd h (by decide)

lemma demoMask_data_eight : demoMask.data 0 0 0 8 = 1 := by
  simp only [demoMask, theMask, demoRand]
  have hmem : ((8 : ℕ) : ℤ) ∈ centerLineIndices 16 1 ∨
      (8 : ℕ) ∈ List.take (2 / 2) [3] :=
    Or.inl ((centerLineIndices_16_1_mem _).mpr (by norm_num))
  rw [if_pos (by norm_num : (0 : ℕ) < 2), if_pos hmem]

/-- Claim C6, counterexample: the mask generated for `img_size=(16,16)`,
`acceleration=4`, `batch_size=1` has rows with both 0 and 1 entries — the
index assignments of `step` hit the last (width) axis, so whole *columns*,
not rows, are retained or zeroed. -/
theorem mask_rows_not_uniform :
    AccelerationMaskGenerator.step demoGen demoRand 1 =
        Except.ok [("mask", demoMask)] ∧
      ¬ RowsUniform demoMask := by
  refine ⟨rfl, ?_⟩
  intro hru
  rcases hru 0 (by decide) 0 (by decide) 0 (by decide) with h | h
  · have h0 := h 0 (by decide)
    rw [demoMask_data_zero] at h0
    norm_num at h0
  · have h8 := h 8 (by decide)
    rw [demoMask_data_eight] at h8
    norm_num at h8

/-- Claim C6 (amended): in every mask tensor produced by
`AccelerationMaskGenerator.step`, each *column* of the (H, W) frequency grid
— fixed width index `w`, all height indices — is either fully retained
(all entries 1) or fully zeroed (all entries 0). -/
theorem mask_cols_uniform (g : AccelerationMaskGenerator) (rand : ℕ → List ℕ)
    (bs : ℕ) (res : List (String × Mask)) (m : Mask)
    (hok : g.step rand bs = Except.ok res) (hm : res = [("mask", m)]) :
    ∀ b c w, (∀ h, h < m.height → m.data b c h w = 1) ∨
      (∀ h, h < m.height → m.data b c h w = 0) := by
  obtain ⟨C, H, W, nlc, nls, _, _, hres⟩ := step_ok_cases g rand bs res hok
  rw [hres] at hm
  injection hm with h1 _
  injection h1 with _ h2
  subst h2
  intro b c w
  rcases theMask_data01 rand bs C H W nlc nls b c 0 w with h0 | h1
  · right
    intro h _
    rw [theMask_height_indep rand bs C H W nlc nls b c h 0 w]
    exact h0
  · left
    intro h _
    rw [theMask_height_indep rand bs C H W nlc nls b c h 0 w]
    exact h1

theorem mask_cols_uniform_witness :
    (∀ h, h < demoMask.height → demoMask.data 0 0 h 8 = 1) ∨
      (∀ h, h < demoMask.height → demoMask.data 0 0 h 8 = 0) :=
  mask_cols_uniform demoGen demoRand 1 [("mask", demoMask)] demoMask rfl rfl 0 0 8

/-- Claim C7: in every successful `step` call the deterministic low-frequency
band is built from an index tensor of fixed count exactly 50 — whatever
`num_lines_center` is — whose entries are evenly spaced between
`H//2 - num_lines_center//2` and `H//2 + num_lines_center//2 + 1` (then
truncated to integers), and the lines at those indices are set to 1 for every
batch element. -/
theorem mask_center_band (g : AccelerationMaskGenerator) (rand : ℕ → List ℕ)
    (bs : ℕ) (res : List (String × Mask)) (m : Mask)
    (hok : g.step rand bs = Except.ok res) (hm : res = [("mask", m)]) :
    ∃ nlc, ((g.acceleration = 4 ∧ nlc = 8 * m.width / 100) ∨
        (g.acceleration = 8 ∧ nlc = 4 * m.width / 100)) ∧
      (centerLineIndices m.height nlc).length = 50 ∧
      (∀ i, i < 50 → (centerLineIndices m.height nlc).getD i 0 =
        ratTrunc (linspaceFun (centerStart m.height nlc) (centerEnd m.height nlc) 50 i)) ∧
      (∀ b c h w, b < m.batch → c < m.chan → h < m.height → w < m.width →
        (w : ℤ) ∈ centerLineIndices m.height nlc → m.data b c h w = 1) := by
  obtain ⟨C, H, W, nlc, nls, _, hacc, hres⟩ := step_ok_cases g rand bs res hok
  rw [hres] at hm
  injection hm with h1 _
  injection h1 with _ h2
  subst h2
  refine ⟨nlc, ?_, ?_, ?_, ?_⟩
  · rcases hacc with ⟨ha, hnlc, _⟩ | ⟨ha, hnlc, _⟩
    · exact Or.inl ⟨ha, hnlc⟩
    · exact Or.inr ⟨ha, hnlc⟩
  · exact linspaceLong_length _ _ 50
  · intro i hi
    exact linspaceLong_getD _ _ hi
  · intro b c h w _ hc _ _ hmem
    exact theMask_center_one rand bs C H W nlc nls hc hmem

theorem mask_center_band_witness :
    ∃ nlc, ((demoGen.acceleration = 4 ∧ nlc = 8 * demoMask.width / 100) ∨
        (demoGen.acceleration = 8 ∧ nlc = 4 * demoMask.width / 100)) ∧
      (centerLineIndices demoMask.height nlc).length = 50 ∧
      (∀ i, i < 50 → (centerLineIndices demoMask.height nlc).getD i 0 =
        ratTrunc (linspaceFun (centerStart demoMask.height nlc)
          (centerEnd demoMask.height nlc) 50 i)) ∧
      (∀ b c h w, b < demoMask.batch → c < demoMask.chan → h < demoMask.height →
        w < demoMask.width →
        (w : ℤ) ∈ centerLineIndices demoMask.height nlc →
          demoMask.data b c h w = 1) :=
  mask_center_band demoGen demoRand 1 [("mask", demoMask)] demoMask rfl rfl

/-- Claim C10: whenever the center-band span
`(H//2 + nlc//2 + 1) - (H//2 - nlc//2)` is at most 49, the 50-step evenly
spaced truncated sequence hits exactly every integer of the closed interval
from `H//2 - nlc//2` to `H//2 + nlc//2 + 1` — the full contiguous range,
including the extra index one past the symmetric half-width. -/
theorem center_band_covers_range (H nlc : ℕ)
    (hspan : centerEnd H nlc - centerStart H nlc ≤ 49) :
    ∀ k : ℤ, k ∈ centerLineIndices H nlc ↔
      (centerStart H nlc ≤ k ∧ k ≤ centerEnd H nlc) := by
  have hpos : 0 < centerEnd H nlc - centerStart H nlc := by
    rw [centerSpan]
    have h0 : (0 : ℤ) ≤ ((nlc / 2 : ℕ) : ℤ) := Int.natCast_nonneg _
    omega
  exact linspace50_covers _ _ hpos hspan

theorem center_band_covers_range_witness :
    (9 : ℤ) ∈ centerLineIndices 16 1 ↔
      (centerStart 16 1 ≤ 9 ∧ (9 : ℤ) ≤ centerEnd 16 1) :=
  center_band_covers_range 16 1 (by decide) 9
